import Mathlib

/-!
Verification of the mesh-chat presence/membership core (`src/chat.js`).

The embedding models the `Client` class: its constructor state, the
`subscribe` topic guard and subscription-established callback (which records
`_joined_at` and registers the heartbeat and cleanup intervals), the
per-message dispatcher closure, the liveness-sweeper interval body, `send`,
and `disconnect`.  JavaScript `Date` values are modelled as integers
(milliseconds), the `_topic_members` object as an association list in
insertion order, and a thrown JavaScript exception as `Except.error`.
-/

namespace MeshChat

/- Constants, from the CONSTS section of chat.js. -/

def PEER_DISCOVERY_INTERVAL : Int := 2000

def MEMBER_HEARTBEAT_INTERVAL : Int := 3000

/-- The amount of time without a heartbeat before a member is pronounced dead. -/
def MEMBER_CLEANUP_INTERVAL : Int := MEMBER_HEARTBEAT_INTERVAL * 3

def MEMBER_CLEANUP_POLL_INTERVAL : Int := 200

/-- Timestamps: a JavaScript `Date` as milliseconds since the epoch. -/
abbrev Timestamp := Int

/-- The `_topic_members` object: member name to last-heartbeat time, in
insertion order (JS object property order for string keys). -/
abbrev Table := List (String × Timestamp)

/-- Models `name in this._topic_members`: key membership in the table. -/
def hasKey (tbl : Table) (k : String) : Bool :=
  tbl.any (fun p => p.1 = k)

/-- Models `this._topic_members[name] = v`: replace the value of an existing key in
place, or append a fresh key. -/
def upsert (tbl : Table) (k : String) (v : Timestamp) : Table :=
  if hasKey tbl k then tbl.map (fun p => if p.1 = k then (k, v) else p)
  else tbl ++ [(k, v)]

/-- Events emitted through the `EventEmitter` interface of `Client`. -/
inductive Event
  | joined (name : String)
  | left (name : String)
  | message (name : String) (payload : String)
  | error (description : String)
deriving DecidableEq, Repr

/-- An inbound byte payload as seen by the subscription callback, after the
transport layer: either bytes that `JSON.parse` rejects (throwing a
`SyntaxError`), or a structurally decoded record with the envelope fields. -/
inductive Payload
  | malformed
  | env (type : String) (name : String) (joined_at : Timestamp) (payload : String)
deriving DecidableEq, Repr

/-- An outbound envelope published to the pubsub topic. -/
inductive Wire
  | heartbeat (name : String) (joined_at : Option Timestamp)
  | message (name : String) (payload : String)
deriving DecidableEq, Repr

/-- A JavaScript exception escaping the subscription callback. -/
inductive JsException
  | jsonParseError
deriving DecidableEq, Repr

/-- The fields of `Client` relevant to the protocol core, plus the runtime's
view of which registered intervals are still active (`setInterval` adds an
id, `clearInterval` removes it). -/
structure ClientState where
  name : String
  topic : Option String
  joined_at : Option Timestamp
  topic_members : Table
  interval_ids : List Nat
  active_timers : List Nat
  next_timer_id : Nat
deriving DecidableEq, Repr

/-- The `Client` constructor. -/
def mkClient (name : String) : ClientState :=
  { name := name, topic := none, joined_at := none, topic_members := [],
    interval_ids := [], active_timers := [], next_timer_id := 0 }

/-- Models `this._joined_at < new Date(data.joined_at)`: JS relational comparison of
`_joined_at` (possibly still `null`, which coerces to 0) against the parsed
envelope timestamp. -/
def jsDateLt : Option Timestamp → Timestamp → Bool
  | none, t => decide (0 < t)
  | some j, t => decide (j < t)

/-- The per-message subscription callback (the Dispatcher), lines 159-178 of
chat.js.  `JSON.parse` throwing on a malformed payload is modelled as
`Except.error`; otherwise the callback branches on `data.type`. -/
def dispatch (s : ClientState) (p : Payload) (now : Timestamp) :
    Except JsException (ClientState × List Event) :=
  match p with
  | .malformed => .error .jsonParseError
  | .env type name joined_at payload =>
    if type = "heartbeat" then
      let evs :=
        if hasKey s.topic_members name = false ∧ jsDateLt s.joined_at joined_at = true
        then [Event.joined name] else []
      .ok ({ s with topic_members := upsert s.topic_members name now }, evs)
    else if type = "message" then
      .ok (s, [Event.message name payload])
    else
      .ok (s, [Event.error ("Encountered invalid message: " ++ type)])

/-- The body of the cleanup interval (the Liveness Sweeper), lines 201-214 of
chat.js: iterate over a snapshot of `Object.entries(this._topic_members)`,
and for each stale entry first `emit("member:left", name)` and then
`delete this._topic_members[name]`.  The first argument is the live table,
the second the remaining snapshot; each emitted event is paired with the
live table at the moment of emission. -/
def sweepGo (now : Timestamp) : Table → Table → Table × List (Event × Table)
  | live, [] => (live, [])
  | live, (n, t) :: rest =>
    if now - t ≥ MEMBER_CLEANUP_INTERVAL then
      let r := sweepGo now (live.filter (fun p => p.1 ≠ n)) rest
      (r.1, (Event.left n, live) :: r.2)
    else
      sweepGo now live rest

/-- One tick of the Liveness Sweeper on the current table. -/
def sweepTick (tbl : Table) (now : Timestamp) : Table × List (Event × Table) :=
  sweepGo now tbl tbl

/-- Models `Client.subscribe` (lines 151-216): the topic guard throws when `_topic`
is already set, with no further effect; otherwise the topic is stored and the
subscription-established callback records `_joined_at` and pushes the
heartbeat interval and the cleanup interval onto `_interval_ids`. -/
def subscribe (s : ClientState) (topic : String) (now : Timestamp) :
    Except String Unit × ClientState :=
  match s.topic with
  | some _ => (.error "This client is already subscribed to a topic", s)
  | none =>
    (.ok (),
     { s with topic := some topic, joined_at := some now,
              interval_ids := s.interval_ids ++ [s.next_timer_id, s.next_timer_id + 1],
              active_timers := s.active_timers ++ [s.next_timer_id, s.next_timer_id + 1],
              next_timer_id := s.next_timer_id + 2 })

/-- Models `Client.send` (lines 219-228): throws when `_topic` is still `null`,
otherwise publishes exactly one message envelope.  The second component is
the list of publishes performed by the call. -/
def send (s : ClientState) (msg : String) :
    Except String Unit × List (String × Wire) :=
  match s.topic with
  | none => (.error "This client has not subscribed to a topic yet", [])
  | some t => (.ok (), [(t, Wire.message s.name msg)])

/-- The runtime's `clearInterval`: deactivate one timer id (a no-op when the
id is not active). -/
def clearInterval (active : List Nat) (id : Nat) : List Nat :=
  active.filter (fun i => i ≠ id)

/-- Models `Client.disconnect` (lines 230-234): `clearInterval` on every id in
`_interval_ids`; the list itself is not cleared. -/
def disconnect (s : ClientState) : ClientState :=
  { s with active_timers := s.interval_ids.foldl clearInterval s.active_timers }

/-- The external triggers that mutate the Presence Table after joining:
delivery of an inbound payload, and a sweeper tick. -/
inductive Input
  | recv (p : Payload) (now : Timestamp)
  | sweep (now : Timestamp)
deriving DecidableEq, Repr

/-- One trigger applied to the client state.  When the dispatcher throws, the
exception propagates out of the callback: no event is emitted and the table
is untouched. -/
def step (s : ClientState) (i : Input) : ClientState × List Event :=
  match i with
  | .recv p now =>
    match dispatch s p now with
    | .ok r => r
    | .error _ => (s, [])
  | .sweep now =>
    let r := sweepTick s.topic_members now
    ({ s with topic_members := r.1 }, r.2.map Prod.fst)

/-- A whole run: fold `step` over a list of triggers, concatenating the
emitted events. -/
def run (s : ClientState) : List Input → ClientState × List Event
  | [] => (s, [])
  | i :: rest =>
    ((run (step s i).1 rest).1, (step s i).2 ++ (run (step s i).1 rest).2)

/-- Whether a trigger is the delivery of an envelope bearing the given
sender name. -/
def mentionsName (own : String) : Input → Bool
  | .recv (.env _ n _ _) _ => n = own
  | _ => false

/-- A concrete joined session used to instantiate theorems: client "me"
subscribed to "main" at time 0. -/
def sampleJoined : ClientState := (subscribe (mkClient "me") "main" 0).2

/- Helper lemmas about the table and the sweeper. -/

theorem hasKey_iff (tbl : Table) (m : String) :
    hasKey tbl m = true ↔ ∃ t, (m, t) ∈ tbl := by
  unfold hasKey
  rw [List.any_eq_true]
  constructor
  · rintro ⟨p, hp, he⟩
    have h1 : p.1 = m := by simpa using he
    exact ⟨p.2, by rw [← h1]; exact hp⟩
  · rintro ⟨t, ht⟩
    exact ⟨(m, t), ht, by simp⟩

theorem hasKey_upsert_iff (tbl : Table) (k : String) (v : Timestamp) (m : String) :
    hasKey (upsert tbl k v) m = true ↔ (hasKey tbl m = true ∨ m = k) := by
  unfold upsert
  by_cases hk : hasKey tbl k = true
  · simp only [hk, if_true]
    unfold hasKey
    rw [List.any_map, List.any_eq_true, List.any_eq_true]
    constructor
    · rintro ⟨p, hp, he⟩
      by_cases hpk : p.1 = k
      · right
        have h2 : k = m := by simpa [Function.comp, hpk] using he
        exact h2.symm
      · left
        exact ⟨p, hp, by simpa [Function.comp, hpk] using he⟩
    · rintro (⟨p, hp, he⟩ | hm)
      · refine ⟨p, hp, ?_⟩
        by_cases hpk : p.1 = k
        · have h1 : p.1 = m := by simpa using he
          have h2 : k = m := hpk.symm.trans h1
          simp [Function.comp, hpk, h2]
        · simpa [Function.comp, hpk] using he
      · rcases (hasKey_iff tbl k).mp hk with ⟨t, ht⟩
        exact ⟨(k, t), ht, by simp [Function.comp, hm]⟩
  · simp only [hk, if_false]
    unfold hasKey
    rw [List.any_eq_true]
    unfold hasKey at hk
    rw [List.any_eq_true] at hk
    constructor
    · rintro ⟨p, hp, he⟩
      rcases List.mem_append.mp hp with h | h
      · left
        rw [List.any_eq_true]
        exact ⟨p, h, he⟩
      · right
        have h2 : p = (k, v) := by simpa using h
        subst h2
        have h3 : k = m := by simpa using he
        exact h3.symm
    · rintro (h | hm)
      · rw [List.any_eq_true] at h
        rcases h with ⟨p, hp, he⟩
        exact ⟨p, List.mem_append.mpr (Or.inl hp), he⟩
      · exact ⟨(k, v), List.mem_append.mpr (Or.inr (by simp)), by simp [hm]⟩

theorem hasKey_filter_ne (tbl : Table) (n m : String) :
    hasKey (tbl.filter (fun p => p.1 ≠ n)) m = true ↔ (m ≠ n ∧ hasKey tbl m = true) := by
  rw [hasKey_iff, hasKey_iff]
  constructor
  · rintro ⟨t, ht⟩
    rw [List.mem_filter] at ht
    refine ⟨by simpa using ht.2, ⟨t, ht.1⟩⟩
  · rintro ⟨hmn, t, ht⟩
    exact ⟨t, List.mem_filter.mpr ⟨ht, by simpa using hmn⟩⟩

theorem sweepGo_final_subset (now : Timestamp) :
    ∀ (snap live : Table) (m : String),
      hasKey (sweepGo now live snap).1 m = true → hasKey live m = true := by
  intro snap
  induction snap with
  | nil => intro live m h; simpa [sweepGo] using h
  | cons p rest ih =>
    intro live m h
    obtain ⟨n, t⟩ := p
    rw [sweepGo] at h
    by_cases hst : now - t ≥ MEMBER_CLEANUP_INTERVAL
    · simp only [hst, if_true] at h
      have := ih (live.filter (fun p => p.1 ≠ n)) m h
      exact ((hasKey_filter_ne live n m).mp this).2
    · simp only [hst, if_false] at h
      exact ih live m h

theorem sweepGo_final_iff (now : Timestamp) :
    ∀ (snap live : Table) (m : String),
      hasKey (sweepGo now live snap).1 m = true ↔
        (hasKey live m = true ∧ ∀ t, (m, t) ∈ snap → now - t < MEMBER_CLEANUP_INTERVAL) := by
  intro snap
  induction snap with
  | nil => intro live m; simp [sweepGo]
  | cons p rest ih =>
    intro live m
    obtain ⟨n, t⟩ := p
    rw [sweepGo]
    by_cases hst : now - t ≥ MEMBER_CLEANUP_INTERVAL
    · simp only [hst, if_true]
      rw [ih]
      rw [hasKey_filter_ne]
      constructor
      · rintro ⟨⟨hmn, hlive⟩, hrest⟩
        refine ⟨hlive, ?_⟩
        intro u hu
        rcases List.mem_cons.mp hu with h | h
        · have hp : m = n ∧ u = t := by simpa [Prod.ext_iff] using h
          exact absurd hp.1 hmn
        · exact hrest u h
      · rintro ⟨hlive, hall⟩
        have hmn : m ≠ n := by
          intro he
          subst he
          exact absurd (hall t (List.mem_cons_self _ _)) (not_lt.mpr hst)
        exact ⟨⟨hmn, hlive⟩, fun u hu => hall u (List.mem_cons_of_mem _ hu)⟩
    · simp only [hst, if_false]
      rw [ih]
      constructor
      · rintro ⟨hlive, hrest⟩
        refine ⟨hlive, ?_⟩
        intro u hu
        rcases List.mem_cons.mp hu with h | h
        · have hp : m = n ∧ u = t := by simpa [Prod.ext_iff] using h
          rw [hp.2]
          exact lt_of_not_ge hst
        · exact hrest u h
      · rintro ⟨hlive, hall⟩
        exact ⟨hlive, fun u hu => hall u (List.mem_cons_of_mem _ hu)⟩

theorem sweepGo_events_key (now : Timestamp) :
    ∀ (snap live : Table), ∀ e ∈ (sweepGo now live snap).2,
      ∃ m t, e.1 = Event.left m ∧ (m, t) ∈ snap ∧ now - t ≥ MEMBER_CLEANUP_INTERVAL := by
  intro snap
  induction snap with
  | nil => intro live e he; simp [sweepGo] at he
  | cons p rest ih =>
    intro live e he
    obtain ⟨n, t⟩ := p
    rw [sweepGo] at he
    by_cases hst : now - t ≥ MEMBER_CLEANUP_INTERVAL
    · simp only [hst, if_true] at he
      rcases List.mem_cons.mp he with h | h
      · subst h
        exact ⟨n, t, rfl, List.mem_cons_self _ _, hst⟩
      · rcases ih (live.filter (fun p => p.1 ≠ n)) e h with ⟨m, u, h1, h2, h3⟩
        exact ⟨m, u, h1, List.mem_cons_of_mem _ h2, h3⟩
    · simp only [hst, if_false] at he
      rcases ih live e he with ⟨m, u, h1, h2, h3⟩
      exact ⟨m, u, h1, List.mem_cons_of_mem _ h2, h3⟩

theorem sweepGo_count_left_zero (now : Timestamp) :
    ∀ (snap live : Table) (n : String), (∀ t, (n, t) ∉ snap) →
      ((sweepGo now live snap).2.map Prod.fst).count (Event.left n) = 0 := by
  intro snap
  induction snap with
  | nil => intro live n h; simp [sweepGo]
  | cons p rest ih =>
    intro live n h
    obtain ⟨m, u⟩ := p
    have hmn : m ≠ n := by
      intro he
      subst he
      exact h u (List.mem_cons_self _ _)
    have hrest : ∀ t, (n, t) ∉ rest := fun t ht => h t (List.mem_cons_of_mem _ ht)
    rw [sweepGo]
    by_cases hst : now - u ≥ MEMBER_CLEANUP_INTERVAL
    · simp only [hst, if_true, List.map_cons]
      rw [List.count_cons]
      simp [ih _ n hrest, hmn]
    · simp only [hst, if_false]
      exact ih live n hrest

theorem sweepGo_count_left (now : Timestamp) :
    ∀ (snap live : Table), (snap.map Prod.fst).Nodup →
      ∀ (n : String) (t : Timestamp), (n, t) ∈ snap →
      ((sweepGo now live snap).2.map Prod.fst).count (Event.left n) =
        if now - t ≥ MEMBER_CLEANUP_INTERVAL then 1 else 0 := by
  intro snap
  induction snap with
  | nil => intro live _ n t ht; cases ht
  | cons p rest ih =>
    intro live hnd n t ht
    obtain ⟨m, u⟩ := p
    rw [List.map_cons, List.nodup_cons] at hnd
    rw [sweepGo]
    rcases List.mem_cons.mp ht with h | h
    · have hp : n = m ∧ t = u := by simpa [Prod.ext_iff] using h
      obtain ⟨h1, h2⟩ := hp
      subst h1
      subst h2
      have hrest : ∀ u2, (n, u2) ∉ rest := by
        intro u2 hu2
        exact hnd.1 (List.mem_map.mpr ⟨(n, u2), hu2, rfl⟩)
      by_cases hst : now - t ≥ MEMBER_CLEANUP_INTERVAL
      · simp only [hst, if_true, List.map_cons]
        rw [List.count_cons]
        simp [sweepGo_count_left_zero now rest _ n hrest]
      · simp only [hst, if_false]
        exact sweepGo_count_left_zero now rest live n hrest
    · have hm_ne : m ≠ n := by
        intro he
        subst he
        exact hnd.1 (List.mem_map.mpr ⟨(m, t), h, rfl⟩)
      by_cases hst : now - u ≥ MEMBER_CLEANUP_INTERVAL
      · simp only [hst, if_true, List.map_cons]
        rw [List.count_cons]
        simp [ih _ hnd.2 n t h, hm_ne]
      · simp only [hst, if_false]
        exact ih live hnd.2 n t h

theorem sweepGo_trace_spec (now : Timestamp) :
    ∀ (snap live : Table), (snap.map Prod.fst).Nodup → (∀ p ∈ snap, p ∈ live) →
      ∀ es ∈ (sweepGo now live snap).2,
        ∃ n, es.1 = Event.left n ∧ hasKey es.2 n = true ∧
          hasKey (sweepGo now live snap).1 n = false := by
  intro snap
  induction snap with
  | nil => intro live _ _ es hes; simp [sweepGo] at hes
  | cons p rest ih =>
    intro live hnd hsub es hes
    obtain ⟨n, t⟩ := p
    rw [List.map_cons, List.nodup_cons] at hnd
    rw [sweepGo] at hes ⊢
    by_cases hst : now - t ≥ MEMBER_CLEANUP_INTERVAL
    · simp only [hst, if_true] at hes ⊢
      rcases List.mem_cons.mp hes with h | h
      · subst h
        refine ⟨n, rfl, ?_, ?_⟩
        · exact (hasKey_iff live n).mpr ⟨t, hsub (n, t) (List.mem_cons_self _ _)⟩
        · by_contra hc
          rw [Bool.not_eq_false] at hc
          have h2 := sweepGo_final_subset now rest (live.filter (fun p => p.1 ≠ n)) n hc
          exact ((hasKey_filter_ne live n n).mp h2).1 rfl
      · have hsub2 : ∀ q ∈ rest, q ∈ live.filter (fun p => p.1 ≠ n) := by
          intro q hq
          rw [List.mem_filter]
          refine ⟨hsub q (List.mem_cons_of_mem _ hq), ?_⟩
          simp only [decide_eq_true_eq]
          intro he
          apply hnd.1
          rw [← he]
          exact List.mem_map.mpr ⟨q, hq, rfl⟩
        exact ih _ hnd.2 hsub2 es h
    · simp only [hst, if_false] at hes ⊢
      exact ih live hnd.2 (fun q hq => hsub q (List.mem_cons_of_mem _ hq)) es hes

theorem key_nodup_unique {l : Table} (h : (l.map Prod.fst).Nodup) {n : String}
    {t u : Timestamp} (h1 : (n, t) ∈ l) (h2 : (n, u) ∈ l) : t = u := by
  induction l with
  | nil => cases h1
  | cons p rest ih =>
    rw [List.map_cons, List.nodup_cons] at h
    rcases List.mem_cons.mp h1 with ha | ha
    · rcases List.mem_cons.mp h2 with hb | hb
      · rw [← ha] at hb
        injection hb with hb1 hb2
        exact hb2.symm
      · exfalso
        apply h.1
        rw [← ha]
        exact List.mem_map.mpr ⟨(n, u), hb, rfl⟩
    · rcases List.mem_cons.mp h2 with hb | hb
      · exfalso
        apply h.1
        rw [← hb]
        exact List.mem_map.mpr ⟨(n, t), ha, rfl⟩
      · exact ih h.2 ha hb

theorem step_name (s : ClientState) (i : Input) : (step s i).1.name = s.name := by
  cases i with
  | recv p now =>
    cases p with
    | malformed => rfl
    | env k n t pl =>
      simp only [step, dispatch]
      split_ifs <;> rfl
  | sweep now => rfl

theorem step_recv_keeps_key (s : ClientState) (p : Payload) (now : Timestamp) (m : String)
    (h : hasKey s.topic_members m = true) :
    hasKey (step s (Input.recv p now)).1.topic_members m = true := by
  cases p with
  | malformed => exact h
  | env k n t pl =>
    simp only [step, dispatch]
    split_ifs
    · exact (hasKey_upsert_iff s.topic_members n now m).mpr (Or.inl h)
    · exact (hasKey_upsert_iff s.topic_members n now m).mpr (Or.inl h)
    · exact h
    · exact h

theorem step_no_self (s : ClientState) (i : Input)
    (h0 : hasKey s.topic_members s.name = false)
    (h1 : mentionsName s.name i = false) :
    hasKey (step s i).1.topic_members s.name = false ∧
    ∀ e ∈ (step s i).2, e ≠ Event.joined s.name ∧ e ≠ Event.left s.name := by
  cases i with
  | recv p now =>
    cases p with
    | malformed =>
      refine ⟨h0, ?_⟩
      intro e he
      simp [step, dispatch] at he
    | env k n t pl =>
      have hne : n ≠ s.name := by simpa [mentionsName] using h1
      simp only [step, dispatch]
      split_ifs with hk1 hcond hk2
      · refine ⟨?_, ?_⟩
        · rw [Bool.eq_false_iff]
          intro hc
          rcases (hasKey_upsert_iff s.topic_members n now s.name).mp hc with hc2 | hc2
          · rw [h0] at hc2
            cases hc2
          · exact hne hc2.symm
        · intro e he
          have he2 : e = Event.joined n := by simpa using he
          subst he2
          exact ⟨by simp [hne], by simp⟩
      · refine ⟨?_, ?_⟩
        · rw [Bool.eq_false_iff]
          intro hc
          rcases (hasKey_upsert_iff s.topic_members n now s.name).mp hc with hc2 | hc2
          · rw [h0] at hc2
            cases hc2
          · exact hne hc2.symm
        · intro e he
          simp at he
      · refine ⟨h0, ?_⟩
        intro e he
        have he2 : e = Event.message n pl := by simpa using he
        subst he2
        exact ⟨by simp, by simp⟩
      · refine ⟨h0, ?_⟩
        intro e he
        have he2 : e = Event.error ("Encountered invalid message: " ++ k) := by simpa using he
        subst he2
        exact ⟨by simp, by simp⟩
  | sweep now =>
    refine ⟨?_, ?_⟩
    · rw [Bool.eq_false_iff]
      intro hc
      have h2 := sweepGo_final_subset now s.topic_members s.topic_members s.name hc
      rw [h0] at h2
      cases h2
    · intro e he
      simp only [step] at he
      rcases List.mem_map.mp he with ⟨es, hes, hfst⟩
      rcases sweepGo_events_key now s.topic_members s.topic_members es hes with ⟨m, t, hm1, hm2, _⟩
      have hmne : m ≠ s.name := by
        intro heq
        have hk : hasKey s.topic_members s.name = true :=
          (hasKey_iff _ _).mpr ⟨t, heq ▸ hm2⟩
        rw [h0] at hk
        cases hk
      rw [← hfst, hm1]
      exact ⟨by simp, by simp [hmne]⟩

theorem run_no_self (s : ClientState) (inputs : List Input)
    (h0 : hasKey s.topic_members s.name = false)
    (h1 : inputs.all (fun i => !(mentionsName s.name i)) = true) :
    hasKey (run s inputs).1.topic_members s.name = false ∧
    ∀ e ∈ (run s inputs).2, e ≠ Event.joined s.name ∧ e ≠ Event.left s.name := by
  induction inputs generalizing s with
  | nil => exact ⟨h0, by intro e he; simp [run] at he⟩
  | cons i rest ih =>
    rw [List.all_cons, Bool.and_eq_true] at h1
    have hstep := step_no_self s i h0 (by simpa using h1.1)
    have hname := step_name s i
    have hrec := ih (step s i).1 (by rw [hname]; exact hstep.1) (by rw [hname]; exact h1.2)
    rw [hname] at hrec
    refine ⟨?_, ?_⟩
    · exact hrec.1
    · intro e he
      simp only [run] at he
      rcases List.mem_append.mp he with h | h
      · exact hstep.2 e h
      · exact hrec.2 e h

theorem step_recv_heartbeat (s : ClientState) (n : String) (t : Timestamp)
    (pl : String) (now : Timestamp) :
    step s (Input.recv (Payload.env "heartbeat" n t pl) now) =
      ({ s with topic_members := upsert s.topic_members n now },
       if hasKey s.topic_members n = false ∧ jsDateLt s.joined_at t = true
       then [Event.joined n] else []) := by
  simp only [step, dispatch, if_true]

theorem foldl_clearInterval_eq_filter (l : List Nat) :
    ∀ a : List Nat, l.foldl clearInterval a = a.filter (fun i => !(l.contains i)) := by
  induction l with
  | nil =>
    intro a
    simp
  | cons x xs ih =>
    intro a
    rw [List.foldl_cons, ih]
    unfold clearInterval
    rw [List.filter_filter]
    congr 1
    funext i
    by_cases h : i = x
    · subst h
      simp
    · by_cases h2 : xs.contains i = true <;> simp [h, h2, List.contains_cons]

/- The claims. -/

/-- Claim C1: for an inbound heartbeat envelope, the dispatcher emits
`member:joined` exactly when the sender's name is not yet a key of the
Presence Table and this session's `joined_at` is strictly less than the
envelope's `joined_at`; in either case the table entry for that name is
upserted with the local receipt time, so a heartbeat whose `joined_at` is
not after this session's populates the table silently, with no event. -/
theorem heartbeat_announce_iff (s : ClientState) (j : Timestamp)
    (hj : s.joined_at = some j) (n : String) (t : Timestamp) (pl : String)
    (now : Timestamp) :
    dispatch s (Payload.env "heartbeat" n t pl) now =
      Except.ok ({ s with topic_members := upsert s.topic_members n now },
        if hasKey s.topic_members n = false ∧ j < t then [Event.joined n] else []) := by
  simp [dispatch, hj, jsDateLt]

theorem heartbeat_announce_iff_witness :
    dispatch sampleJoined (Payload.env "heartbeat" "A" 1 "x") 5 =
      Except.ok ({ sampleJoined with topic_members := [("A", 5)] }, [Event.joined "A"]) := by
  rw [heartbeat_announce_iff sampleJoined 0 rfl "A" 1 "x" 5]
  rfl

/-- Claim C2 (code bug): the dispatcher is not exception-free on arbitrary
inbound byte payloads: a payload that fails structural decoding makes
`JSON.parse` throw, and the exception propagates out of the subscription
callback instead of producing an `error` event (the Presence Table is left
unchanged by the escape).  An envelope whose kind is neither heartbeat nor
message does produce an `error` event carrying the offending kind. -/
theorem dispatch_malformed_throws :
    dispatch sampleJoined Payload.malformed 0 = Except.error JsException.jsonParseError ∧
    (step sampleJoined (Input.recv Payload.malformed 0)).1 = sampleJoined ∧
    dispatch sampleJoined (Payload.env "bogus" "A" 1 "x") 0 =
      Except.ok (sampleJoined, [Event.error "Encountered invalid message: bogus"]) := by
  refine ⟨rfl, rfl, ?_⟩
  rfl

/-- Claim C3 counterexample: sender "A", whose first observed heartbeat
carries `joined_at` 1, strictly after this session's `joined_at` 0, fires
`member:joined` twice over one run: on its first heartbeat and again on a
heartbeat delivered after the sweeper evicted it. -/
theorem joined_refires_after_eviction :
    ((run sampleJoined
      [Input.recv (Payload.env "heartbeat" "A" 1 "") 0,
       Input.sweep 9000,
       Input.recv (Payload.env "heartbeat" "A" 1 "") 9001]).2).count (Event.joined "A") = 2 := by
  decide

/-- Claim C3 (amended): a heartbeat from a name already present in the
Presence Table fires no `member:joined`; a heartbeat from an absent name
whose `joined_at` is strictly after this session's fires exactly one
`member:joined` and installs the name in the table; and no inbound payload
ever removes a table key — hence `member:joined` fires once per continuous
residence of a sender in the table, and can fire again for the same sender
only after the Liveness Sweeper has evicted it. -/
theorem heartbeat_joined_once_while_resident :
    (∀ (s : ClientState) (n : String) (t : Timestamp) (pl : String) (now : Timestamp),
       hasKey s.topic_members n = true →
       ((step s (Input.recv (Payload.env "heartbeat" n t pl) now)).2).count
         (Event.joined n) = 0) ∧
    (∀ (s : ClientState) (j : Timestamp) (n : String) (t : Timestamp) (pl : String)
       (now : Timestamp),
       s.joined_at = some j → hasKey s.topic_members n = false → j < t →
       (step s (Input.recv (Payload.env "heartbeat" n t pl) now)).2 = [Event.joined n] ∧
       hasKey (step s (Input.recv (Payload.env "heartbeat" n t pl) now)).1.topic_members n
         = true) ∧
    (∀ (s : ClientState) (p : Payload) (now : Timestamp) (m : String),
       hasKey s.topic_members m = true →
       hasKey (step s (Input.recv p now)).1.topic_members m = true) := by
  refine ⟨?_, ?_, ?_⟩
  · intro s n t pl now h
    rw [step_recv_heartbeat, if_neg]
    · simp
    · intro hc
      rw [h] at hc
      cases hc.1
  · intro s j n t pl now hj h0 hlt
    rw [step_recv_heartbeat, if_pos ⟨h0, by rw [hj]; simpa [jsDateLt] using hlt⟩]
    exact ⟨rfl, (hasKey_upsert_iff s.topic_members n now n).mpr (Or.inr rfl)⟩
  · intro s p now m h
    exact step_recv_keeps_key s p now m h

theorem heartbeat_joined_once_while_resident_witness :
    ((step { sampleJoined with topic_members := [("A", 0)] }
        (Input.recv (Payload.env "heartbeat" "A" 1 "x") 7)).2).count (Event.joined "A") = 0 ∧
    (step sampleJoined (Input.recv (Payload.env "heartbeat" "B" 2 "y") 3)).2 =
      [Event.joined "B"] :=
  ⟨heartbeat_joined_once_while_resident.1
      { sampleJoined with topic_members := [("A", 0)] } "A" 1 "x" 7 (by decide),
   (heartbeat_joined_once_while_resident.2.1 sampleJoined 0 "B" 2 "y" 3 rfl
      (by decide) (by decide)).1⟩

/-- Claim C4: on a sweeper tick at time `now`, a member `(n, t)` of the
table is evicted, with exactly one `member:left n` event, iff
`now - t ≥ MEMBER_CLEANUP_INTERVAL`, and that timeout equals three
heartbeat intervals; a member strictly under the threshold stays in the
table and gets no event. -/
theorem sweeper_evicts_iff_stale (tbl : Table) (now : Timestamp)
    (hnd : (tbl.map Prod.fst).Nodup) (n : String) (t : Timestamp) (hmem : (n, t) ∈ tbl) :
    MEMBER_CLEANUP_INTERVAL = 3 * MEMBER_HEARTBEAT_INTERVAL ∧
    (now - t ≥ MEMBER_CLEANUP_INTERVAL →
      hasKey (sweepTick tbl now).1 n = false ∧
      ((sweepTick tbl now).2.map Prod.fst).count (Event.left n) = 1) ∧
    (now - t < MEMBER_CLEANUP_INTERVAL →
      hasKey (sweepTick tbl now).1 n = true ∧
      ((sweepTick tbl now).2.map Prod.fst).count (Event.left n) = 0) := by
  simp only [sweepTick]
  refine ⟨by decide, ?_, ?_⟩
  · intro h
    constructor
    · rw [Bool.eq_false_iff]
      intro hc
      have h2 := (sweepGo_final_iff now tbl tbl n).mp hc
      exact absurd (h2.2 t hmem) (not_lt.mpr h)
    · rw [sweepGo_count_left now tbl tbl hnd n t hmem, if_pos h]
  · intro h
    constructor
    · apply (sweepGo_final_iff now tbl tbl n).mpr
      refine ⟨(hasKey_iff tbl n).mpr ⟨t, hmem⟩, ?_⟩
      intro u hu
      have hu2 : u = t := key_nodup_unique hnd hu hmem
      rw [hu2]
      exact h
    · rw [sweepGo_count_left now tbl tbl hnd n t hmem, if_neg (not_le.mpr h)]

theorem sweeper_evicts_iff_stale_witness :
    hasKey (sweepTick [("A", 0), ("B", 5000)] 9000).1 "A" = false ∧
    ((sweepTick [("A", 0), ("B", 5000)] 9000).2.map Prod.fst).count (Event.left "A") = 1 ∧
    hasKey (sweepTick [("A", 0), ("B", 5000)] 9000).1 "B" = true :=
  ⟨((sweeper_evicts_iff_stale [("A", 0), ("B", 5000)] 9000 (by decide) "A" 0
      (by decide)).2.1 (by decide)).1,
   ((sweeper_evicts_iff_stale [("A", 0), ("B", 5000)] 9000 (by decide) "A" 0
      (by decide)).2.1 (by decide)).2,
   ((sweeper_evicts_iff_stale [("A", 0), ("B", 5000)] 9000 (by decide) "B" 5000
      (by decide)).2.2 (by decide)).1⟩

/-- Claim C5 counterexample: on the tick that evicts "A", the
`member:left "A"` event is emitted while the live table still holds "A"
(the emission snapshot is `[("A", 0)]`): the order is announce-then-remove,
not remove-then-announce. -/
theorem left_emitted_before_removal :
    (sweepTick [("A", 0)] 9000).2 = [(Event.left "A", [("A", 0)])] ∧
    hasKey [("A", 0)] "A" = true := by
  decide

/-- Claim C5 (amended): each eviction is ordered announce-then-remove:
every event a sweeper tick emits is a `member:left n` whose emission-time
table still contains `n` as a key, and `n` is absent from the table once
the tick completes. -/
theorem sweeper_announce_then_remove (tbl : Table) (now : Timestamp)
    (hnd : (tbl.map Prod.fst).Nodup) :
    ∀ es ∈ (sweepTick tbl now).2,
      ∃ n, es.1 = Event.left n ∧ hasKey es.2 n = true ∧
        hasKey (sweepTick tbl now).1 n = false := by
  simp only [sweepTick]
  exact sweepGo_trace_spec now tbl tbl hnd (fun p hp => hp)

theorem sweeper_announce_then_remove_witness :
    hasKey ([("A", 0)] : Table) "A" = true ∧
    hasKey (sweepTick [("A", 0)] 9000).1 "A" = false := by
  obtain ⟨n, h1, h2, h3⟩ := sweeper_announce_then_remove [("A", 0)] 9000 (by decide)
    (Event.left "A", [("A", 0)]) (by decide)
  have hn : n = "A" := by simpa using h1.symm
  subst hn
  exact ⟨h2, h3⟩

/-- Claim C6 counterexample: if the transport does deliver this session's
own heartbeat back (carrying the session's own `joined_at`), the dispatcher
inserts `own_name` into the Presence Table, and a later sweeper tick emits
`member:left` for `own_name`. -/
theorem self_delivery_pollutes_table :
    hasKey (step sampleJoined
        (Input.recv (Payload.env "heartbeat" "me" 0 "") 5)).1.topic_members "me" = true ∧
    ((run sampleJoined
        [Input.recv (Payload.env "heartbeat" "me" 0 "") 5, Input.sweep 9005]).2).count
      (Event.left "me") = 1 := by
  decide

/-- Claim C6 (amended): provided no delivered envelope carries `own_name`
(which the transport's `emitSelf: false` configuration guarantees), a
session whose table lacks `own_name` keeps that invariant along any run,
and no emitted `member:joined` or `member:left` event carries `own_name`. -/
theorem no_self_entry_without_self_delivery (s : ClientState) (inputs : List Input)
    (h0 : hasKey s.topic_members s.name = false)
    (h1 : inputs.all (fun i => !(mentionsName s.name i)) = true) :
    hasKey (run s inputs).1.topic_members s.name = false ∧
    ∀ e ∈ (run s inputs).2, e ≠ Event.joined s.name ∧ e ≠ Event.left s.name :=
  run_no_self s inputs h0 h1

theorem no_self_entry_without_self_delivery_witness :
    hasKey (run sampleJoined
      [Input.recv (Payload.env "heartbeat" "A" 1 "x") 0]).1.topic_members "me" = false :=
  (no_self_entry_without_self_delivery sampleJoined
    [Input.recv (Payload.env "heartbeat" "A" 1 "x") 0] (by decide) (by decide)).1

/-- Claim C7: a second `subscribe` on an already-subscribed client fails
with the "already subscribed" usage error and returns the state unchanged:
same stored topic, same `joined_at`, no timers added, same Presence
Table. -/
theorem subscribe_twice_no_effect (s : ClientState) (u : String) (h : s.topic = some u)
    (t2 : String) (now : Timestamp) :
    subscribe s t2 now = (Except.error "This client is already subscribed to a topic", s) := by
  unfold subscribe
  rw [h]

theorem subscribe_twice_no_effect_witness :
    subscribe sampleJoined "other" 42 =
      (Except.error "This client is already subscribed to a topic", sampleJoined) :=
  subscribe_twice_no_effect sampleJoined "main" rfl "other" 42

/-- Claim C8: `disconnect` is a total function (the loop of `clearInterval`
calls cannot throw), it is idempotent, it is a no-op before any timer was
registered, and after it returns every id in `_interval_ids` — in
particular the heartbeat and sweeper intervals registered by `subscribe` —
is no longer active, so neither timer fires again. -/
theorem disconnect_idempotent_and_final (s : ClientState) :
    disconnect (disconnect s) = disconnect s ∧
    (∀ id2 ∈ s.interval_ids, id2 ∉ (disconnect s).active_timers) ∧
    (s.interval_ids = [] → disconnect s = s) := by
  obtain ⟨nm, tp, ja, tm, ii, act, nt⟩ := s
  refine ⟨?_, ?_, ?_⟩
  · simp only [disconnect, foldl_clearInterval_eq_filter, List.filter_filter,
      ClientState.mk.injEq, true_and, and_true]
    congr 1
    funext i
    by_cases h : ii.contains i = true <;> simp [h]
  · intro id2 hid
    simp only [disconnect, foldl_clearInterval_eq_filter]
    intro hc
    rw [List.mem_filter] at hc
    have h3 : ii.contains id2 = true := List.elem_eq_true_of_mem hid
    rw [h3] at hc
    cases hc.2
  · intro h
    subst h
    simp [disconnect]

theorem disconnect_idempotent_and_final_witness :
    disconnect (disconnect sampleJoined) = disconnect sampleJoined ∧
    (disconnect sampleJoined).active_timers.contains 0 = false ∧
    (disconnect sampleJoined).active_timers.contains 1 = false := by
  refine ⟨(disconnect_idempotent_and_final sampleJoined).1, ?_, ?_⟩
  · have h := (disconnect_idempotent_and_final sampleJoined).2.1 0 (by decide)
    exact Bool.eq_false_iff.mpr (fun hc => h (List.mem_of_elem_eq_true hc))
  · have h := (disconnect_idempotent_and_final sampleJoined).2.1 1 (by decide)
    exact Bool.eq_false_iff.mpr (fun hc => h (List.mem_of_elem_eq_true hc))

/-- Claim C9: `send` before any `subscribe` fails with the "not joined"
usage error and publishes nothing; after a join it publishes exactly one
message envelope carrying the client's own name and the payload. -/
theorem send_requires_subscription (s : ClientState) (msg : String) :
    (s.topic = none →
      send s msg = (Except.error "This client has not subscribed to a topic yet", [])) ∧
    (∀ t, s.topic = some t →
      send s msg = (Except.ok (), [(t, Wire.message s.name msg)])) := by
  constructor
  · intro h
    unfold send
    rw [h]
  · intro t h
    unfold send
    rw [h]

theorem send_requires_subscription_witness :
    send (mkClient "me") "hi" =
      (Except.error "This client has not subscribed to a topic yet", []) ∧
    send sampleJoined "hi" = (Except.ok (), [("main", Wire.message "me" "hi")]) :=
  ⟨(send_requires_subscription (mkClient "me") "hi").1 rfl,
   (send_requires_subscription sampleJoined "hi").2 "main" rfl⟩

/-- Claim C10: after `disconnect` on a joined session, `send` still
succeeds and publishes the message envelope: `disconnect` touches only the
timers, leaving the stored topic, `joined_at` and the Presence Table
unchanged, so no state ever makes `send` reject once a topic is stored. -/
theorem send_still_works_after_disconnect (s : ClientState) (t : String)
    (h : s.topic = some t) (msg : String) :
    (disconnect s).topic = s.topic ∧
    (disconnect s).joined_at = s.joined_at ∧
    (disconnect s).topic_members = s.topic_members ∧
    send (disconnect s) msg = (Except.ok (), [(t, Wire.message s.name msg)]) := by
  refine ⟨rfl, rfl, rfl, ?_⟩
  unfold send
  have h2 : (disconnect s).topic = some t := h
  rw [h2]
  rfl

theorem send_still_works_after_disconnect_witness :
    send (disconnect sampleJoined) "bye" =
      (Except.ok (), [("main", Wire.message "me" "bye")]) :=
  (send_still_works_after_disconnect sampleJoined "main" rfl "bye").2.2.2

end MeshChat
